import Mathlib

/-!
Verification of the asynchronous match-list engine of trowser (src/trowser.py).

The development shallowly embeds the data that the search-list dialog keeps in
Python globals and the functions that manipulate it:

* `dlg_srch_lines` — the sorted match index — becomes `SLState.lines : List Int`
  (Python integers are unbounded, so `Int`);
* `dlg_srch_undo` / `dlg_srch_redo` — the two ledger stacks of
  `[opcode, line_list]` pairs (opcode 2 = unfinalized add, -2 = unfinalized
  remove, 1 = finalized add, -1 = finalized remove) — become lists of `UndoCmd`,
  most recent last;
* `dlg_srch_fn_cache` — the frame-number cache — is kept abstractly as an
  association list, since the claims only ever observe it being emptied.

Python's `bisect.bisect_left` is embedded as the actual binary-search algorithm
(`bisect_left`), `list.sort()` / `sorted(...)` as `List.insertionSort` (any
correct ascending sort has the same output on integer lists, where equal
elements are indistinguishable), and `sorted(set(...))` as sorting the
deduplicated list.  Tk widget manipulation (text inserts/deletes, progress bar,
cursors) does not touch the embedded state and is dropped; the scheduling
decisions (`tk.after`, `tk.after_idle`) are reified in `Resched` where a claim
is about them.
-/

namespace Trowser

/-- One entry of the undo/redo ledger: the Python pair `[opcode, line_list]`
from `SearchList_BgSearch_AppendUndoList`.  `op` is 2 (unfinalized add),
-2 (unfinalized remove), 1 (finalized add) or -1 (finalized remove). -/
structure UndoCmd where
  op : Int
  lines : List Int
deriving DecidableEq, Repr

/-- The mutable state of the search-list dialog: the globals `dlg_srch_lines`,
`dlg_srch_undo`, `dlg_srch_redo` and `dlg_srch_fn_cache` of src/trowser.py. -/
structure SLState where
  lines : List Int
  undo : List UndoCmd
  redo : List UndoCmd
  fnCache : List (Int × Int)
deriving DecidableEq, Repr

/-- Auxiliary loop of Python's `bisect.bisect_left`:
`while lo < hi: mid = (lo+hi)//2; if a[mid] < x: lo = mid+1 else: hi = mid`.
`fuel` bounds the iteration count; `a.length` always suffices because `hi - lo`
shrinks every round. -/
def bisectAux (a : List Int) (x : Int) : Nat → Nat → Nat → Nat
  | 0, lo, _ => lo
  | fuel + 1, lo, hi =>
    if lo < hi then
      let mid := (lo + hi) / 2
      if a.getD mid 0 < x then bisectAux a x fuel (mid + 1) hi
      else bisectAux a x fuel lo mid
    else lo

/-- Python stdlib `bisect.bisect_left(a, x)`. -/
def bisect_left (a : List Int) (x : Int) : Nat :=
  bisectAux a x a.length 0 a.length

/-- `SearchList_GetLineIdx` (trowser.py:4298): binary search in the sorted
line-index list for the first value greater or equal to the given value. -/
def SearchList_GetLineIdx (lines : List Int) (ins_line : Int) : Nat :=
  bisect_left lines ins_line

/-- The recurring presence test of trowser.py,
`(idx < len(dlg_srch_lines)) and (dlg_srch_lines[idx] == line)` with
`idx = SearchList_GetLineIdx(line)`; its negation
`(idx >= len(...)) or (...[idx] != line)` is the absence test. -/
def linePresent (lines : List Int) (line : Int) : Bool :=
  let idx := SearchList_GetLineIdx lines line
  decide (idx < lines.length ∧ lines.getD idx 0 = line)

/-- `SearchList_BgSearch_AppendUndoList` (trowser.py:4733): merge the batch
into an unfinalized top entry of the same direction, else push a new
unfinalized entry. -/
def appendUndoList (undo_list : List UndoCmd) (do_add : Bool) (line_list : List Int) :
    List UndoCmd :=
  let opcode : Int := if do_add then 2 else -2
  match undo_list.getLast? with
  | some prev_undo =>
    if prev_undo.op = opcode then
      undo_list.dropLast ++ [⟨prev_undo.op, prev_undo.lines ++ line_list⟩]
    else
      undo_list ++ [⟨opcode, line_list⟩]
  | none => undo_list ++ [⟨opcode, line_list⟩]

/-- `SearchList_BgSearch_FinalizeUndoList` (trowser.py:4750): mark the top
entry as closed by flipping opcode 2 to 1 and -2 to -1. -/
def finalizeUndoList (undo_list : List UndoCmd) : List UndoCmd :=
  match undo_list.getLast? with
  | some last =>
    if last.op = 2 ∨ last.op = -2 then
      undo_list.dropLast ++ [⟨if last.op = -2 then -1 else 1, last.lines⟩]
    else undo_list
  | none => undo_list

/-- One iteration of the deletion loop of `SearchList_InvertCmd`
(trowser.py:4239-4246): look the line up in `dlg_srch_lines` (which the loop
never modifies) and mark the found position with -1 in the working copy. -/
def invertDeleteStep (lines : List Int) (nl : List Int) (line : Int) : List Int :=
  let idx := SearchList_GetLineIdx lines line
  if idx < lines.length ∧ lines.getD idx 0 = line then nl.set idx (-1) else nl

/-- The deletion branch of `SearchList_InvertCmd` (trowser.py:4236-4248):
walk `line_list` in descending order marking found positions, then bulk-filter
the marks. -/
def invertCmdDelete (line_list lines : List Int) : List Int :=
  ((List.insertionSort (fun a b => b ≤ a) line_list).foldl (invertDeleteStep lines)
      lines).filter
    (fun x => decide (x ≠ -1))

/-- One iteration of the re-insertion loop of `SearchList_InvertCmd`
(trowser.py:4252-4258): the absence test runs against the partially appended
list (`dlg_srch_lines` grows at its tail during this loop), and an absent line
is appended at the end. -/
def invertInsertStep (cur : List Int) (line : Int) : List Int :=
  let idx := SearchList_GetLineIdx cur line
  if idx ≥ cur.length ∨ cur.getD idx 0 ≠ line then cur ++ [line] else cur

/-- The re-insertion branch of `SearchList_InvertCmd` (trowser.py:4250-4260):
walk `line_list` in descending order appending the lines that are absent, then
sort once in bulk. -/
def invertCmdInsert (line_list lines : List Int) : List Int :=
  List.insertionSort (· ≤ ·)
    ((List.insertionSort (fun a b => b ≤ a) line_list).foldl invertInsertStep lines)

/-- `SearchList_InvertCmd` (trowser.py:4233) acting on `dlg_srch_lines`:
for `op * mode < 0` undo an insertion (delete the lines again), for
`op * mode > 0` re-insert previously removed lines. -/
def SearchList_InvertCmd (op : Int) (line_list : List Int) (mode : Int)
    (lines : List Int) : List Int :=
  if op * mode < 0 then invertCmdDelete line_list lines
  else if op * mode > 0 then invertCmdInsert line_list lines
  else lines

/-- Shared completion epilogue of `SearchList_BgUndoRedoLoop`
(trowser.py:4213-4216): finalize the ledger the replay has been appending to
(`dlg_srch_redo` for mode < 0, `dlg_srch_undo` otherwise). -/
def finalizeReplayTarget (mode : Int) (st : SLState) : SLState :=
  if mode < 0 then { st with redo := finalizeUndoList st.redo }
  else { st with undo := finalizeUndoList st.undo }

/-- `SearchList_BgUndoRedoLoop` (trowser.py:4180) run to completion (the
suspension branch merely re-schedules and is not part of the completed run).
Each iteration takes the next 400-line fragment, applies `SearchList_InvertCmd`
to the match index, records the fragment on the opposite ledger, and continues
while `off + 400 <= len(line_list)`; the final iteration finalizes the target
ledger.  `rem` is `line_list[off:]`; `fuel` bounds the number of iterations
(the wrapper passes `rem.length`, which always suffices because every
continued iteration consumes 400 elements). -/
def bgUndoRedoLoop (op : Int) (mode : Int) : Nat → List Int → SLState → SLState
  | fuel, rem, st =>
    let frag := rem.take 400
    let lines' := SearchList_InvertCmd op frag mode st.lines
    let st' :=
      if mode < 0 then
        { st with lines := lines', redo := appendUndoList st.redo (decide (op > 0)) frag }
      else
        { st with lines := lines', undo := appendUndoList st.undo (decide (op > 0)) frag }
    if 400 ≤ rem.length then
      match fuel with
      | fuel' + 1 => bgUndoRedoLoop op mode fuel' (rem.drop 400) st'
      | 0 => finalizeReplayTarget mode st'
    else finalizeReplayTarget mode st'

/-- `SearchList_Undo` (trowser.py:4140) with the scheduled
`SearchList_BgUndoRedoLoop` run to completion: pop the last undo entry and
replay it with mode -1 (the dialog is shown and no background task is in
flight, so `SearchList_SearchAbort` is a no-op). -/
def SearchList_Undo (st : SLState) : SLState :=
  match st.undo.getLast? with
  | none => st
  | some cmd => bgUndoRedoLoop cmd.op (-1) cmd.lines.length cmd.lines
      { st with undo := st.undo.dropLast }

/-- `SearchList_Redo` (trowser.py:4160) with the scheduled replay run to
completion: pop the last redo entry and replay it with mode 1. -/
def SearchList_Redo (st : SLState) : SLState :=
  match st.redo.getLast? with
  | none => st
  | some cmd => bgUndoRedoLoop cmd.op 1 cmd.lines.length cmd.lines
      { st with redo := st.redo.dropLast }

/-- One work slice of the remove branch of `SearchList_BgSearchLoop`
(trowser.py:4393-4398): the scan deletes the first candidate line that passes
the presence test and breaks, recording the single removed line on the undo
ledger (4406-4407). -/
def removeScan (st : SLState) : List Int → SLState
  | [] => st
  | line :: rest =>
    let idx := SearchList_GetLineIdx st.lines line
    if idx < st.lines.length ∧ st.lines.getD idx 0 = line then
      { st with lines := st.lines.eraseIdx idx,
                undo := appendUndoList st.undo false [line] }
    else removeScan st rest

/-- One work slice of `SearchList_BgSearchLoop` (trowser.py:4365-4411), with
`cands` the stream of match lines the document search yields during the slice.
In the add branch every candidate failing the presence test (checked against
the slice-initial `dlg_srch_lines`, which the loop does not touch) joins
`line_list`; then the batch is recorded on the undo ledger and bulk
appended-and-sorted into the match index. -/
def bgSearchTurn (st : SLState) (do_add : Bool) (cands : List Int) : SLState :=
  if do_add then
    let line_list := cands.filter (fun line => !linePresent st.lines line)
    if 0 < line_list.length then
      { st with undo := appendUndoList st.undo true line_list,
                lines := List.insertionSort (· ≤ ·) (st.lines ++ line_list) }
    else st
  else removeScan st cands

/-- One work slice of `SearchList_BgSearchTagsLoop` (trowser.py:4490-4523):
identical to the add branch of the search loop, with the candidate lines
coming from tagged ranges. -/
def bgSearchTagsTurn (st : SLState) (cands : List Int) : SLState :=
  let line_list := cands.filter (fun line => !linePresent st.lines line)
  if 0 < line_list.length then
    { st with undo := appendUndoList st.undo true line_list,
              lines := List.insertionSort (· ≤ ·) (st.lines ++ line_list) }
  else st

/-- One work slice of `SearchList_BgLoadLoop` (trowser.py:5249-5272), with
`batch` the slice `line_list[start_off:end_off]`.  The widget-insert loop at
5258-5264 is guarded by the absence test but only touches the text widget;
the match index itself is extended with the raw slice (5267) and sorted
(5268), the redo stack is reset (5269), and the raw slice is recorded on the
undo ledger (5270). -/
def bgLoadTurn (st : SLState) (batch : List Int) : SLState :=
  { st with lines := List.insertionSort (· ≤ ·) (st.lines ++ batch),
            redo := [],
            undo := appendUndoList st.undo true batch }

/-- Completion epilogue shared by `SearchList_BgSearchLoop` (4435),
`SearchList_BgSearchTagsLoop` (4546) and `SearchList_BgLoadLoop` (5281):
finalize the undo ledger when the background run finishes. -/
def bgTaskFinalize (st : SLState) : SLState :=
  { st with undo := finalizeUndoList st.undo }

/-- `SearchList_StartSearchAll` (trowser.py:4334) as far as the dialog state is
concerned: `dlg_srch_redo = []` under `global dlg_srch_redo` resets the redo
list before the background search is scheduled. -/
def SearchList_StartSearchAll (st : SLState) : SLState :=
  { st with redo := [] }

/-- `SearchList_StartSearchTags` (trowser.py:4460-4472) as far as the dialog
state is concerned.  The function declares only `global tid_search_list`, so
the statement `dlg_srch_redo = []` at 4470 binds a function-local name and the
global redo stack is left untouched; the dialog state is therefore unchanged
when the tag-import task is scheduled. -/
def SearchList_StartSearchTags (st : SLState) : SLState :=
  st

/-- `SearchList_AdjustLineNums` (trowser.py:5102) for a shown dialog.  For
`bottom_l == 0` the match index keeps its tail from the first element not
below `top_l` and shifts it by `- top_l + 1`; otherwise it is truncated before
the first element not below `bottom_l` (and not shifted).  Every undo entry
has its line list filtered to the kept range and shifted, entries whose list
becomes empty are dropped, the redo stack is reset and the frame-number cache
is emptied. -/
def SearchList_AdjustLineNums (st : SLState) (top_l bottom_l : Int) : SLState :=
  let lines' :=
    if bottom_l = 0 then
      let idx := SearchList_GetLineIdx st.lines top_l
      (st.lines.drop idx).map (fun line => line - top_l + 1)
    else
      let idx := SearchList_GetLineIdx st.lines bottom_l
      st.lines.take idx
  let undo' := st.undo.filterMap (fun cmd =>
    let tmpl := (cmd.lines.filter
        (fun line => decide (line ≥ top_l ∧ (line < bottom_l ∨ bottom_l = 0)))).map
      (fun line => line - top_l + 1)
    if 0 < tmpl.length then some ⟨cmd.op, tmpl⟩ else none)
  { lines := lines', undo := undo', redo := [], fnCache := [] }

/-- The renumbering transform as the specification words it: drop every line
number inside the discarded range (`[1, top_l)` above, `[bottom_l, end)`
below when `bottom_l ≠ 0`), and shift every survivor `L` to `L - (top_l - 1)`.
Stated independently of the source so the code can be compared against it. -/
def specRenumber (top_l bottom_l : Int) (ls : List Int) : List Int :=
  (ls.filter (fun L => decide (top_l ≤ L ∧ (L < bottom_l ∨ bottom_l = 0)))).map
    (fun L => L - (top_l - 1))

/-- Numeric value of a digit character. -/
def digitVal (c : Char) : Nat :=
  c.toNat - '0'.toNat

/-- Leading-digit match of `re.match(r"^(\d+)", line_str)` in
`SearchList_LoadFrom` (trowser.py:5205): the maximal run of digits at the
start of the line (empty when the line does not start with a digit). -/
def leadingDigits (s : List Char) : List Char :=
  s.takeWhile Char.isDigit

/-- Decimal value of a digit run. -/
def natOfDigits (ds : List Char) : Nat :=
  ds.foldl (fun n c => 10 * n + digitVal c) 0

/-- The blank/comment tolerance test of `SearchList_LoadFrom`
(trowser.py:5212), `re.match(r"^\\s*(?:#.*)?$", line_str)`, evaluated as the
regular expression actually says: the raw string holds backslash-backslash-s,
so the pattern demands a literal backslash, then zero or more literal `s`
characters, then an optional `#`-comment, then end of line.  (It does NOT
match leading whitespace; `\\s` in a raw string is an escaped backslash
followed by `s`, not the whitespace class.)  Lines are modelled without their
trailing newline, which `$` accepts either way. -/
def toleranceRegexMatch (s : List Char) : Bool :=
  match s with
  | '\\' :: rest =>
    let rest2 := rest.dropWhile (fun c => c = 's')
    decide (rest2 = [] ∨ rest2.head? = some '#')
  | _ => false

/-- Accumulated result of the parsing loop of `SearchList_LoadFrom`. -/
structure LoadParse where
  lineList : List Int
  skipped : Nat
  synerr : Nat
deriving DecidableEq, Repr

/-- The line-parsing loop of `SearchList_LoadFrom` (trowser.py:5204-5213):
a line starting with digits contributes its value if
`0 < line ∧ line < max_line` (the Tk index `end` is one past the last document
line, so this is `[1, lineCount]`), else bumps `skipped`; a non-digit line
that fails the tolerance regex bumps `synerr`. -/
def parseLoadFile (max_line : Int) (ls : List (List Char)) : LoadParse :=
  ls.foldl (fun acc line_str =>
    let ds := leadingDigits line_str
    if ds.length > 0 then
      let line : Int := (natOfDigits ds : Nat)
      if 0 < line ∧ line < max_line then { acc with lineList := acc.lineList ++ [line] }
      else { acc with skipped := acc.skipped + 1 }
    else if toleranceRegexMatch line_str then acc
    else { acc with synerr := acc.synerr + 1 })
    ⟨[], 0, 0⟩

/-- The preparation step `line_list = sorted(set(line_list))` of
`SearchList_LoadFrom` (trowser.py:5228) before the import task is scheduled:
duplicates removed, then sorted ascending. -/
def prepareLoadList (l : List Int) : List Int :=
  List.insertionSort (· ≤ ·) l.dedup

/-- A scheduling decision of a background loop: `tk.after ms` with the
`loop_cnt` argument the callback is given, `tk.after_idle` likewise, or task
completion. -/
inductive Resched where
  | timer : Nat → Nat → Resched
  | idle : Nat → Resched
  | done : Resched
deriving DecidableEq, Repr

/-- The dispatch skeleton of `SearchList_BgSearchLoop` (trowser.py:4354-4453):
a suspended environment (`block_bg_tasks` or an incremental-search /
global-highlight task) re-schedules after 100ms with the counter reset
(4358-4360); a counter above 10 re-schedules after 10ms with the counter
reset (4362-4363); otherwise the slice runs (its state effect is
`bgSearchTurn`) and either re-schedules as idle task with the counter bumped
(4430-4432, 4437-4445) when work remains, or completes (4446-4450);
with the dialog closed the task just ends (4452-4453). -/
def bgSearchLoopSched (suspended : Bool) (shown : Bool) (loop_cnt : Nat)
    (moreWork : Bool) : Resched :=
  if suspended then .timer 100 0
  else if loop_cnt > 10 then .timer 10 0
  else if shown then
    if moreWork then .idle (loop_cnt + 1) else .done
  else .done

/-- Test whether the top ledger entry is unfinalized with the given direction,
i.e. whether `SearchList_BgSearch_AppendUndoList` will extend it in place. -/
def topUnfinalizedSameDir (undo_list : List UndoCmd) (do_add : Bool) : Bool :=
  match undo_list.getLast? with
  | some e => decide (e.op = (if do_add then 2 else -2))
  | none => false

/-- How the wait on `vwait_search_complete` in `SearchList_SearchAbort` ends:
the user pressed Ok (`abort_cur`), the user pressed Cancel or closed the popup
while the task was still busy (`cancel_new`), or the background task completed
naturally during the wait, destroying the popup with `tid_search_list` already
None (`obsolete`, via `SearchList_DestroyCb`). -/
inductive AbortOutcome where
  | abortCur
  | cancelNew
  | obsolete
deriving DecidableEq, Repr

/-- Dialog state plus the in-flight background task.  `task = some side`
models `tid_search_list != None`; `side` records which ledger the task has
been appending to and finalizes on natural completion (`true` for the undo
ledger — search, tag import, file import, redo replay — and `false` for the
redo ledger — undo replay). -/
structure AbortState where
  st : SLState
  task : Option Bool
deriving DecidableEq, Repr

/-- Natural completion of the in-flight task: its completion path finalizes
the ledger it was appending to and clears `tid_search_list`. -/
def taskNaturalCompletion (side : Bool) (st : SLState) : SLState :=
  if side then { st with undo := finalizeUndoList st.undo }
  else { st with redo := finalizeUndoList st.redo }

/-- `SearchList_SearchAbort` (trowser.py:4592-4668).  With no task in flight
the function only clears a stale popup and returns True.  With a task in
flight and `do_warn`, the confirmation popup is shown and the function blocks
on `vwait_search_complete`; `outcome` is how that wait ends (the task is
modelled as doing no further work during the wait, except that
`.obsolete` means it ran to completion).  `cancel_new` is then true exactly
for `.cancelNew`; unless `cancel_new`, a still-active task is cancelled after
finalizing the open entries of both ledgers (4651-4657).  Returns
`not cancel_new`. -/
def SearchList_SearchAbort (a : AbortState) (do_warn : Bool)
    (outcome : AbortOutcome) : Bool × AbortState :=
  match a.task with
  | none => (true, a)
  | some side =>
    let cancelled : SLState :=
      { a.st with undo := finalizeUndoList a.st.undo, redo := finalizeUndoList a.st.redo }
    if do_warn then
      match outcome with
      | .cancelNew => (false, a)
      | .abortCur => (true, ⟨cancelled, none⟩)
      | .obsolete => (true, ⟨taskNaturalCompletion side a.st, none⟩)
    else
      (true, ⟨cancelled, none⟩)

/-! Basic facts about the ledger operations. -/

theorem appendUndoList_extend (stack : List UndoCmd) (d : Bool) (t l : List Int) :
    appendUndoList (stack ++ [⟨if d then 2 else -2, t⟩]) d l
      = stack ++ [⟨if d then 2 else -2, t ++ l⟩] := by
  cases d <;> simp [appendUndoList, List.getLast?_concat]

theorem appendUndoList_push (stack : List UndoCmd) (d : Bool) (l : List Int)
    (h : topUnfinalizedSameDir stack d = false) :
    appendUndoList stack d l = stack ++ [⟨if d then 2 else -2, l⟩] := by
  unfold appendUndoList topUnfinalizedSameDir at *
  match hl : stack.getLast? with
  | none => simp [hl]
  | some e =>
    rw [hl] at h
    simp only [decide_eq_false_iff_not] at h
    simp [hl, h]

theorem appendUndoList_append (stack : List UndoCmd) (d : Bool) (l₁ l₂ : List Int) :
    appendUndoList (appendUndoList stack d l₁) d l₂ = appendUndoList stack d (l₁ ++ l₂) := by
  unfold appendUndoList
  match hl : stack.getLast? with
  | none => simp [List.getLast?_concat, List.dropLast_concat]
  | some e =>
    by_cases he : e.op = (if d then 2 else -2)
    · simp [hl, he, List.getLast?_concat, List.dropLast_concat, List.append_assoc]
    · simp [hl, he, List.getLast?_concat, List.dropLast_concat]

theorem finalizeUndoList_concat_add (stack : List UndoCmd) (l : List Int) :
    finalizeUndoList (stack ++ [⟨2, l⟩]) = stack ++ [⟨1, l⟩] := by
  simp [finalizeUndoList, List.getLast?_concat, List.dropLast_concat]

theorem finalizeUndoList_concat_remove (stack : List UndoCmd) (l : List Int) :
    finalizeUndoList (stack ++ [⟨-2, l⟩]) = stack ++ [⟨-1, l⟩] := by
  simp [finalizeUndoList, List.getLast?_concat, List.dropLast_concat]

/-- C5.  `recordBatch` coalescing: with an unfinalized same-direction top
entry, `SearchList_BgSearch_AppendUndoList` extends it in place; with any
other top state (empty stack, finalized top, opposite direction) it pushes
exactly one new unfinalized entry, and two same-direction batches recorded
with no intervening finalize yield exactly one entry holding the
concatenation of the two batches. -/
theorem claim5_append_undo_coalesce (stack : List UndoCmd) (d : Bool) (t l₁ l₂ : List Int) :
    (appendUndoList (stack ++ [⟨if d then 2 else -2, t⟩]) d l₁
        = stack ++ [⟨if d then 2 else -2, t ++ l₁⟩])
    ∧ (topUnfinalizedSameDir stack d = false →
        appendUndoList stack d l₁ = stack ++ [⟨if d then 2 else -2, l₁⟩]
        ∧ appendUndoList (appendUndoList stack d l₁) d l₂
            = stack ++ [⟨if d then 2 else -2, l₁ ++ l₂⟩]) := by
  refine ⟨appendUndoList_extend stack d t l₁, fun h => ⟨appendUndoList_push stack d l₁ h, ?_⟩⟩
  rw [appendUndoList_push stack d l₁ h, appendUndoList_extend]

/-- Witness for C5 at a concrete input: a finalized top entry is not extended;
the two batches [1] and [2] end up as the single new entry [1, 2]. -/
theorem claim5_append_undo_coalesce_witness :
    topUnfinalizedSameDir [(⟨1, [3]⟩ : UndoCmd)] true = false
    ∧ appendUndoList (appendUndoList [(⟨1, [3]⟩ : UndoCmd)] true [1]) true [2]
        = [⟨1, [3]⟩, ⟨2, [1, 2]⟩] :=
  ⟨by decide, ((claim5_append_undo_coalesce [⟨1, [3]⟩] true [] [1] [2]).2 (by decide)).2⟩

/-- C9.  Throttling in `SearchList_BgSearchLoop`: a slice arriving with
counter at most 10 re-schedules same-turn (idle) with the counter bumped, the
arrival with counter 11 — i.e. after 10 consecutive same-turn resumptions —
re-schedules with a real 10ms delay and the counter reset to 0, and any
suspension backoff re-schedules with a real 100ms delay and the counter reset
to 0. -/
theorem claim9_throttle :
    (∀ k, k ≤ 10 → bgSearchLoopSched false true k true = .idle (k + 1))
    ∧ bgSearchLoopSched false true 11 true = .timer 10 0
    ∧ (∀ shown cnt more, bgSearchLoopSched true shown cnt more = .timer 100 0) := by
  refine ⟨fun k hk => ?_, rfl, fun shown cnt more => rfl⟩
  simp only [bgSearchLoopSched, Bool.false_eq_true, if_false, if_true]
  rw [if_neg (by omega)]

/-- Witness for C9: the idle-resumption branch at counter 3. -/
theorem claim9_throttle_witness : bgSearchLoopSched false true 3 true = .idle 4 :=
  claim9_throttle.1 3 (by decide)

/-- C6 (code bug).  `SearchList_StartSearchTags` does not clear the redo
stack: it declares only `global tid_search_list`, so `dlg_srch_redo = []`
(trowser.py:4470, under the comment "reset redo list") binds a function-local
name and the global redo stack survives the tag import, while
`SearchList_StartSearchAll` (4344) does clear it. -/
theorem claim6_tag_import_keeps_redo :
    (SearchList_StartSearchTags ⟨[], [], [⟨1, [5]⟩], []⟩).redo = [⟨1, [5]⟩]
    ∧ (SearchList_StartSearchAll ⟨[], [], [⟨1, [5]⟩], []⟩).redo = [] :=
  ⟨rfl, rfl⟩

/-- C8 (code bug).  The line-number import parser counts blank lines and
comment lines as syntax errors: the tolerance pattern `r"^\\s*(?:#.*)?$"`
requires a literal backslash, so neither a blank line nor `# c` matches it
and each bumps `synerr` (which the warning message then reports as
"non-empty lines without a number value").  Out-of-range values (0 and 2000
against a 1000-line document, `max_line` = 1001) are skipped and counted, and
the in-range value 5 is still accepted. -/
theorem claim8_blank_comment_counted_as_error :
    parseLoadFile 1001 ["# c".toList, "".toList, "5".toList, "0".toList, "2000".toList]
      = ⟨[5], 2, 2⟩ := by
  decide

/-- C10.  The batch handed to `SearchList_BgLoadLoop` is
`sorted(set(line_list))`: strictly ascending, each accepted line number
occurring at most once however often it occurs in the file, and containing
exactly the line numbers the parser accepted. -/
theorem claim10_load_list_sorted_unique (max_line : Int) (ls : List (List Char)) :
    List.Sorted (· < ·) (prepareLoadList (parseLoadFile max_line ls).lineList)
    ∧ ∀ x : Int,
        (prepareLoadList (parseLoadFile max_line ls).lineList).count x ≤ 1
        ∧ (x ∈ prepareLoadList (parseLoadFile max_line ls).lineList
            ↔ x ∈ (parseLoadFile max_line ls).lineList) := by
  set l := (parseLoadFile max_line ls).lineList
  have hperm := List.perm_insertionSort (· ≤ ·) l.dedup
  have hnodup : (prepareLoadList l).Nodup := hperm.symm.nodup (List.nodup_dedup l)
  have hsorted : List.Sorted (· ≤ ·) (prepareLoadList l) :=
    List.sorted_insertionSort (· ≤ ·) l.dedup
  refine ⟨(List.Pairwise.and hsorted hnodup).imp
      (fun {a b} h => lt_of_le_of_ne h.1 h.2), fun x => ?_⟩
  exact ⟨List.nodup_iff_count_le_one.mp hnodup x,
    (List.mem_insertionSort (· ≤ ·)).trans List.mem_dedup⟩

/-- C1 (code bug).  A file-import slice duplicates line numbers that are
already in the match index: `SearchList_BgLoadLoop` extends `dlg_srch_lines`
with the raw slice (trowser.py:5267) even though the text-widget insert right
above it (5261) is guarded by the absence test, so importing line 5 into a
match index already holding 5 yields [5, 5] — the observed index after the
slice is not duplicate-free. -/
theorem claim1_load_duplicates_match_index :
    (bgLoadTurn ⟨[5], [], [], []⟩ [5]).lines = [5, 5]
    ∧ ¬ (bgLoadTurn ⟨[5], [], [], []⟩ [5]).lines.Nodup := by
  exact ⟨by decide, by decide⟩

/-- C7.  Abort negotiation: with a warning prompt and a task in flight,
`SearchList_SearchAbort` returns False with the task and both ledgers
untouched exactly when the wait ends in "cancel_new"; on "abort_cur" it
returns True, cancels the task and finalizes the open entries of both
ledgers (leaving the match index alone); on natural completion of the task
during the prompt ("obsolete") it returns True with nothing left to abort. -/
theorem claim7_search_abort (a : AbortState) (side : Bool) (outcome : AbortOutcome)
    (htask : a.task = some side) :
    (((SearchList_SearchAbort a true outcome).1 = false
        ∧ (SearchList_SearchAbort a true outcome).2 = a)
      ↔ outcome = .cancelNew)
    ∧ (outcome = .abortCur →
        (SearchList_SearchAbort a true outcome).1 = true
        ∧ (SearchList_SearchAbort a true outcome).2.task = none
        ∧ (SearchList_SearchAbort a true outcome).2.st.undo = finalizeUndoList a.st.undo
        ∧ (SearchList_SearchAbort a true outcome).2.st.redo = finalizeUndoList a.st.redo
        ∧ (SearchList_SearchAbort a true outcome).2.st.lines = a.st.lines)
    ∧ (outcome = .obsolete →
        (SearchList_SearchAbort a true outcome).1 = true
        ∧ (SearchList_SearchAbort a true outcome).2.task = none) := by
  obtain ⟨st, task⟩ := a
  simp only at htask
  subst htask
  cases outcome <;> simp [SearchList_SearchAbort]

/-- Witness for C7 at a concrete state with an unfinalized add entry open on
the undo ledger: cancel-new leaves everything alone and returns False. -/
theorem claim7_search_abort_witness :
    ((SearchList_SearchAbort ⟨⟨[3], [⟨2, [3]⟩], [], []⟩, some true⟩ true .cancelNew).1 = false
      ∧ (SearchList_SearchAbort ⟨⟨[3], [⟨2, [3]⟩], [], []⟩, some true⟩ true .cancelNew).2
          = ⟨⟨[3], [⟨2, [3]⟩], [], []⟩, some true⟩) :=
  (claim7_search_abort ⟨⟨[3], [⟨2, [3]⟩], [], []⟩, some true⟩ true .cancelNew rfl).1.mpr rfl

/-- C2 counterexample.  A concrete sequence of bulk operations after which
undo() followed by redo() does not restore the pre-undo state: a search-all
adds line 5, then a file import of line 5 duplicates it in the match index
(the C1 defect), leaving [5, 5] with two add entries on the undo ledger.
Undo deletes the single marked occurrence (lines become [5]); redo finds 5
already present and re-inserts nothing, so the match index ends as [5]
instead of [5, 5]. -/
theorem claim2_roundtrip_counterexample :
    SearchList_Redo (SearchList_Undo
        (bgTaskFinalize (bgLoadTurn (bgTaskFinalize (bgSearchTurn ⟨[], [], [], []⟩ true [5])) [5])))
      ≠ bgTaskFinalize (bgLoadTurn (bgTaskFinalize (bgSearchTurn ⟨[], [], [], []⟩ true [5])) [5]) := by
  decide

/-! Correctness of the embedded `bisect.bisect_left` on partitioned lists:
whenever positions below `k` hold values below `x` and positions from `k` on
do not, the binary search returns `k`.  Sorted lists are the special case
`k = (takeWhile (· < x)).length`, but the search-list code also runs the
search on lists of the shape "sorted prefix ++ appended tail", which the
partitioned formulation covers. -/

theorem bisectAux_boundary (a : List Int) (x : Int) (k : Nat) :
    ∀ (fuel lo hi : Nat), lo ≤ k → k ≤ hi → hi ≤ a.length → hi - lo ≤ fuel →
      (∀ i, lo ≤ i → i < k → a.getD i 0 < x) →
      (∀ i, k ≤ i → i < hi → ¬ a.getD i 0 < x) →
      bisectAux a x fuel lo hi = k := by
  intro fuel
  induction fuel with
  | zero =>
    intro lo hi hlo hhi _ hfuel _ _
    simp only [bisectAux]
    omega
  | succ n ih =>
    intro lo hi hlo hhi hlen hfuel hbelow habove
    simp only [bisectAux]
    by_cases hlt : lo < hi
    · rw [if_pos hlt]
      by_cases hmid : a.getD ((lo + hi) / 2) 0 < x
      · rw [if_pos hmid]
        have hk : (lo + hi) / 2 < k := by
          by_contra hge
          exact habove ((lo + hi) / 2) (by omega) (by omega) hmid
        exact ih ((lo + hi) / 2 + 1) hi (by omega) hhi hlen (by omega)
          (fun i h1 h2 => hbelow i (by omega) h2) habove
      · rw [if_neg hmid]
        have hk : k ≤ (lo + hi) / 2 := by
          by_contra hgt
          exact hmid (hbelow ((lo + hi) / 2) (by omega) (by omega))
        exact ih lo ((lo + hi) / 2) hlo hk (by omega) (by omega) hbelow
          (fun i h1 h2 => habove i h1 (by omega))
    · rw [if_neg hlt]
      omega

theorem bisect_left_partition (P Q : List Int) (x : Int)
    (hP : ∀ p ∈ P, p < x) (hQ : ∀ q ∈ Q, ¬ q < x) :
    bisect_left (P ++ Q) x = P.length := by
  have hlen : (P ++ Q).length = P.length + Q.length := by simp
  apply bisectAux_boundary (P ++ Q) x P.length ((P ++ Q).length) 0 ((P ++ Q).length)
    (by omega) (by omega) le_rfl (by omega)
  · intro i _ hi
    rw [List.getD_eq_getElem _ _ (by omega), List.getElem_append_left hi]
    exact hP _ (List.getElem_mem hi)
  · intro i hi hi2
    rw [List.getD_eq_getElem _ _ (by omega), List.getElem_append_right hi]
    exact hQ _ (List.getElem_mem (by omega))

theorem sorted_dropWhile_not_lt (l : List Int) (x : Int)
    (hs : List.Sorted (· ≤ ·) l) :
    ∀ q ∈ l.dropWhile (fun y => decide (y < x)), ¬ q < x := by
  induction l with
  | nil => simp
  | cons a l ih =>
    rw [List.dropWhile_cons]
    by_cases ha : a < x
    · rw [if_pos (by simpa using ha)]
      exact ih (List.sorted_cons.mp hs).2
    · rw [if_neg (by simpa using ha)]
      intro q hq
      rw [List.mem_cons] at hq
      rcases hq with h | h
      · exact h ▸ ha
      · exact fun hqx => ha (lt_of_le_of_lt ((List.sorted_cons.mp hs).1 q h) hqx)

theorem bisect_left_sorted (l : List Int) (x : Int) (hs : List.Sorted (· ≤ ·) l) :
    bisect_left l x = (l.takeWhile (fun y => decide (y < x))).length := by
  conv_lhs =>
    rw [← List.takeWhile_append_dropWhile (p := fun y => decide (y < x)) (l := l)]
  exact bisect_left_partition _ _ x
    (fun p hp => by simpa using List.mem_takeWhile_imp hp)
    (sorted_dropWhile_not_lt l x hs)

/-- The presence test of the source on a list of the shape "sorted prefix plus
tail of strictly larger values" decides membership in the sorted prefix.  The
tail is exactly the shape `SearchList_InvertCmd` produces while re-inserting
lines in descending order. -/
theorem present_append_iff (lines app : List Int) (x : Int)
    (hs : List.Sorted (· ≤ ·) lines) (happ : ∀ z ∈ app, x < z) :
    (bisect_left (lines ++ app) x < (lines ++ app).length
        ∧ (lines ++ app).getD (bisect_left (lines ++ app) x) 0 = x)
      ↔ x ∈ lines := by
  set p : Int → Bool := fun y => decide (y < x) with hp
  have hsplit : lines.takeWhile p ++ (lines.dropWhile p ++ app) = lines ++ app := by
    rw [← List.append_assoc, List.takeWhile_append_dropWhile]
  have hidx : bisect_left (lines ++ app) x = (lines.takeWhile p).length := by
    rw [← hsplit]
    exact bisect_left_partition _ _ x
      (fun q hq => by simpa [hp] using List.mem_takeWhile_imp hq)
      (fun q hq => by
        rw [List.mem_append] at hq
        rcases hq with h | h
        · exact sorted_dropWhile_not_lt lines x hs q h
        · exact not_lt_of_gt (happ q h))
  rw [hidx]
  constructor
  · rintro ⟨hlt, heq⟩
    rw [← hsplit] at hlt heq
    rw [List.getD_eq_getElem _ _ hlt,
      List.getElem_append_right (le_refl (lines.takeWhile p).length)] at heq
    simp only [Nat.sub_self] at heq
    have hmem : x ∈ lines.dropWhile p ++ app := by
      rw [← heq]
      exact List.getElem_mem _
    rw [List.mem_append] at hmem
    rcases hmem with h | h
    · exact (List.dropWhile_sublist p).mem h
    · exact absurd (happ x h) (lt_irrefl x)
  · intro hx
    have hxd : x ∈ lines.dropWhile p := by
      have := (List.takeWhile_append_dropWhile (p := p) (l := lines)) ▸ hx
      rw [List.mem_append] at this
      rcases this with h | h
      · exact absurd (by simpa [hp] using List.mem_takeWhile_imp h) (lt_irrefl x)
      · exact h
    have hdne : lines.dropWhile p ≠ [] := by
      intro h0
      rw [h0] at hxd
      simp at hxd
    rcases hd : lines.dropWhile p with _ | ⟨d0, drest⟩
    · exact absurd hd hdne
    have hlt : (lines.takeWhile p).length < (lines ++ app).length := by
      rw [← hsplit, hd]
      simp only [List.length_append, List.length_cons]
      omega
    refine ⟨hlt, ?_⟩
    rw [← hsplit, List.getD_eq_getElem _ _ (by rw [hsplit]; exact hlt),
      List.getElem_append_right (le_refl (lines.takeWhile p).length)]
    simp only [Nat.sub_self, hd]
    show d0 = x
    have hdsorted : List.Sorted (· ≤ ·) (d0 :: drest) :=
      hd ▸ hs.sublist (List.dropWhile_sublist p)
    have h1 : d0 ≤ x := by
      rw [hd, List.mem_cons] at hxd
      rcases hxd with h | h
      · exact le_of_eq h.symm
      · exact (List.sorted_cons.mp hdsorted).1 x h
    have h2 : ¬ d0 < x := by
      apply sorted_dropWhile_not_lt lines x hs
      rw [hd]
      exact List.mem_cons_self d0 drest
    omega

/-- Presence test on a plain sorted list. -/
theorem present_iff (lines : List Int) (x : Int) (hs : List.Sorted (· ≤ ·) lines) :
    (bisect_left lines x < lines.length
        ∧ lines.getD (bisect_left lines x) 0 = x)
      ↔ x ∈ lines := by
  have := present_append_iff lines [] x hs (by simp)
  simpa using this

/-! Characterization of the two branches of `SearchList_InvertCmd`. -/

instance : IsTotal Int (fun a b => b ≤ a) := ⟨fun a b => le_total b a⟩

instance : IsTrans Int (fun a b => b ≤ a) := ⟨fun _ _ _ h1 h2 => le_trans h2 h1⟩

theorem insertionSort_eq_of_perm (l₁ l₂ : List Int) (h : List.Perm l₁ l₂) :
    List.insertionSort (· ≤ ·) l₁ = List.insertionSort (· ≤ ·) l₂ :=
  List.eq_of_perm_of_sorted
    ((List.perm_insertionSort _ l₁).trans (h.trans (List.perm_insertionSort _ l₂).symm))
    (List.sorted_insertionSort _ l₁) (List.sorted_insertionSort _ l₂)

theorem sorted_lt_of_le_nodup (l : List Int) (hs : List.Sorted (· ≤ ·) l)
    (hn : l.Nodup) : List.Sorted (· < ·) l :=
  (List.Pairwise.and hs hn).imp (fun {_ _} h => lt_of_le_of_ne h.1 h.2)

theorem pairwise_gt_insertionSort (F : List Int) (hF : F.Nodup) :
    List.Pairwise (fun a b => b < a) (List.insertionSort (fun a b => b ≤ a) F) :=
  (List.Pairwise.and (List.sorted_insertionSort (fun a b => b ≤ a) F)
      ((List.perm_insertionSort _ F).symm.nodup hF)).imp
    (fun {_ _} h => lt_of_le_of_ne h.1 (fun he => h.2 he.symm))

theorem invertDelete_fold (lines : List Int) (hs : List.Sorted (· < ·) lines) :
    ∀ (ds m : List Int),
      ds.foldl (invertDeleteStep lines) (lines.map (fun v => if v ∈ m then -1 else v))
        = lines.map (fun v => if v ∈ m ++ ds then -1 else v) := by
  have hsle : List.Sorted (· ≤ ·) lines := hs.imp le_of_lt
  intro ds
  induction ds with
  | nil => intro m; simp
  | cons f ds ih =>
    intro m
    rw [List.foldl_cons]
    have hmark : invertDeleteStep lines (lines.map (fun v => if v ∈ m then -1 else v)) f
        = lines.map (fun v => if v ∈ m ++ [f] then -1 else v) := by
      simp only [invertDeleteStep, SearchList_GetLineIdx]
      by_cases hf : f ∈ lines
      · have hp := (present_iff lines f hsle).mpr hf
        rw [if_pos hp]
        obtain ⟨hblt, hbeq⟩ := hp
        have hk : lines[bisect_left lines f] = f := by
          rw [← List.getD_eq_getElem _ 0 hblt]
          exact hbeq
        apply List.ext_getElem
        · simp
        · intro i h1 h2
          simp only [List.length_set, List.length_map] at h1 h2
          rw [List.getElem_set, List.getElem_map, List.getElem_map]
          by_cases hik : bisect_left lines f = i
          · rw [if_pos hik]
            have : lines[i] = f := hik ▸ hk
            rw [if_pos (by rw [this]; simp)]
          · rw [if_neg hik]
            have hne : lines[i] ≠ f := by
              intro he
              rcases Nat.lt_trichotomy (bisect_left lines f) i with ho | ho | ho
              · have hlt2 := List.pairwise_iff_getElem.mp hs _ _ hblt h2 ho
                rw [hk, he] at hlt2
                exact lt_irrefl f hlt2
              · exact hik ho
              · have hlt2 := List.pairwise_iff_getElem.mp hs _ _ h2 hblt ho
                rw [hk, he] at hlt2
                exact lt_irrefl f hlt2
            by_cases hm : lines[i] ∈ m
            · rw [if_pos hm, if_pos (by simp [hm])]
            · rw [if_neg hm, if_neg (by simp [hm, hne])]
      · have hp := (present_iff lines f hsle).not.mpr hf
        rw [if_neg hp]
        apply List.map_congr_left
        intro v hv
        have hne : v ≠ f := fun he => hf (he ▸ hv)
        by_cases hm : v ∈ m
        · rw [if_pos hm, if_pos (by simp [hm])]
        · rw [if_neg hm, if_neg (by simp [hm, hne])]
    rw [hmark, ih (m ++ [f]), List.append_assoc]
    rfl

theorem markMap_filter (ds l : List Int) (hpos : ∀ v ∈ l, 0 < v) :
    (l.map (fun v => if v ∈ ds then -1 else v)).filter (fun x => decide (x ≠ -1))
      = l.filter (fun v => decide (v ∉ ds)) := by
  induction l with
  | nil => simp
  | cons a t ih =>
    have hpa : 0 < a := hpos a (List.mem_cons_self a t)
    have hpt : ∀ v ∈ t, 0 < v := fun v hv => hpos v (List.mem_cons_of_mem a hv)
    by_cases hm : a ∈ ds
    · simp only [List.map_cons, if_pos hm, List.filter_cons]
      rw [if_neg (by simp), if_neg (by simp [hm])]
      exact ih hpt
    · simp only [List.map_cons, if_neg hm, List.filter_cons]
      rw [if_pos (by simp; omega), if_pos (by simp [hm])]
      rw [ih hpt]

theorem invertCmdDelete_char (line_list lines : List Int)
    (hs : List.Sorted (· < ·) lines) (hpos : ∀ v ∈ lines, 0 < v) :
    invertCmdDelete line_list lines = lines.filter (fun v => decide (v ∉ line_list)) := by
  unfold invertCmdDelete
  have h0 : lines.map (fun v => if v ∈ ([] : List Int) then -1 else v) = lines := by simp
  have key := invertDelete_fold lines hs (List.insertionSort (fun a b => b ≤ a) line_list) []
  rw [h0, List.nil_append] at key
  rw [key, markMap_filter _ _ hpos]
  apply List.filter_congr
  intro v _
  exact decide_eq_decide.mpr
    (not_congr ((List.perm_insertionSort (fun a b => b ≤ a) line_list).mem_iff))

theorem invertInsert_fold (lines : List Int) (hs : List.Sorted (· ≤ ·) lines) :
    ∀ (ds app : List Int), List.Pairwise (fun a b => b < a) ds →
      (∀ z ∈ app, ∀ f ∈ ds, f < z) →
      ds.foldl invertInsertStep (lines ++ app)
        = lines ++ app ++ ds.filter (fun v => decide (v ∉ lines)) := by
  intro ds
  induction ds with
  | nil => intro app _ _; simp
  | cons f ds ih =>
    intro app hpw happ
    rw [List.foldl_cons]
    have happf : ∀ z ∈ app, f < z := fun z hz => happ z hz f (List.mem_cons_self f ds)
    have hpres := present_append_iff lines app f hs happf
    by_cases hf : f ∈ lines
    · have hp := hpres.mpr hf
      have hstep : invertInsertStep (lines ++ app) f = lines ++ app := by
        simp only [invertInsertStep, SearchList_GetLineIdx]
        rw [if_neg]
        rintro (h | h)
        · omega
        · exact h hp.2
      rw [hstep, ih app (List.pairwise_cons.mp hpw).2
        (fun z hz g hg => happ z hz g (List.mem_cons_of_mem f hg))]
      have : decide (f ∉ lines) = false := by simp [hf]
      rw [List.filter_cons, this]
      simp
    · have hp := hpres.not.mpr hf
      have hstep : invertInsertStep (lines ++ app) f = lines ++ (app ++ [f]) := by
        simp only [invertInsertStep, SearchList_GetLineIdx]
        rw [if_pos, List.append_assoc]
        by_contra hc
        push_neg at hc
        exact hp ⟨by omega, hc.2⟩
      rw [hstep, ih (app ++ [f]) (List.pairwise_cons.mp hpw).2
        (fun z hz g hg => by
          rw [List.mem_append] at hz
          rcases hz with h | h
          · exact happ z h g (List.mem_cons_of_mem f hg)
          · rw [List.mem_singleton] at h
            exact h ▸ (List.pairwise_cons.mp hpw).1 g hg)]
      have : decide (f ∉ lines) = true := by simp [hf]
      rw [List.filter_cons, this]
      simp [List.append_assoc]

theorem invertCmdInsert_char (line_list lines : List Int)
    (hs : List.Sorted (· < ·) lines) (hF : line_list.Nodup) :
    invertCmdInsert line_list lines
      = List.insertionSort (· ≤ ·)
          (lines ++ line_list.filter (fun v => decide (v ∉ lines))) := by
  unfold invertCmdInsert
  have key := invertInsert_fold lines (hs.imp le_of_lt)
    (List.insertionSort (fun a b => b ≤ a) line_list) []
    (pairwise_gt_insertionSort line_list hF) (by simp)
  rw [List.append_nil] at key
  rw [key]
  exact insertionSort_eq_of_perm _ _
    (((List.perm_insertionSort (fun a b => b ≤ a) line_list).filter _).append_left lines)

/-! Behaviour of one completed `SearchList_BgUndoRedoLoop` run. -/

theorem invertCmd_delete_eq (op mode : Int) (hom : op * mode < 0) (F lines : List Int)
    (hs : List.Sorted (· < ·) lines) (hpos : ∀ v ∈ lines, 0 < v) :
    SearchList_InvertCmd op F mode lines = lines.filter (fun v => decide (v ∉ F)) := by
  unfold SearchList_InvertCmd
  rw [if_pos hom]
  exact invertCmdDelete_char F lines hs hpos

theorem invertCmd_insert_eq (op mode : Int) (hom : 0 < op * mode) (F lines : List Int)
    (hs : List.Sorted (· < ·) lines) (hF : F.Nodup) (hdisj : ∀ v ∈ F, v ∉ lines) :
    SearchList_InvertCmd op F mode lines = List.insertionSort (· ≤ ·) (lines ++ F) := by
  unfold SearchList_InvertCmd
  rw [if_neg (by omega), if_pos hom, invertCmdInsert_char F lines hs hF,
    List.filter_eq_self.mpr (fun v hv => by simpa using hdisj v hv)]

theorem sorted_pos_insertAppend (lines F : List Int) (hs : List.Sorted (· < ·) lines)
    (hpos : ∀ v ∈ lines, 0 < v) (hF : F.Nodup) (hdisj : ∀ v ∈ F, v ∉ lines)
    (hFpos : ∀ v ∈ F, 0 < v) :
    List.Sorted (· < ·) (List.insertionSort (· ≤ ·) (lines ++ F))
    ∧ ∀ v ∈ List.insertionSort (· ≤ ·) (lines ++ F), 0 < v := by
  constructor
  · apply sorted_lt_of_le_nodup _ (List.sorted_insertionSort _ _)
    exact (List.perm_insertionSort _ _).symm.nodup
      (hs.nodup.append hF (fun a hal haf => hdisj a haf hal))
  · intro v hv
    rw [List.mem_insertionSort, List.mem_append] at hv
    rcases hv with h | h
    · exact hpos v h
    · exact hFpos v h

theorem filter_notMem_comp (lines frag rest : List Int) :
    (lines.filter (fun v => decide (v ∉ frag))).filter (fun v => decide (v ∉ rest))
      = lines.filter (fun v => decide (v ∉ frag ++ rest)) := by
  rw [List.filter_filter]
  apply List.filter_congr
  intro v _
  by_cases h1 : v ∈ frag <;> by_cases h2 : v ∈ rest <;>
    simp [h1, h2, List.mem_append]

theorem insertAppend_comp (lines frag rest : List Int) :
    List.insertionSort (· ≤ ·) (List.insertionSort (· ≤ ·) (lines ++ frag) ++ rest)
      = List.insertionSort (· ≤ ·) (lines ++ (frag ++ rest)) := by
  apply insertionSort_eq_of_perm
  rw [← List.append_assoc]
  exact (List.perm_insertionSort _ _).append_right rest

theorem bgUndoRedoLoop_last (op mode : Int) (hop : op = 1 ∨ op = -1)
    (hmode : mode = -1 ∨ mode = 1) (fuel : Nat) (rem : List Int) (st : SLState)
    (hshort : ¬ 400 ≤ rem.length)
    (hs : List.Sorted (· < ·) st.lines)
    (hpos : ∀ v ∈ st.lines, 0 < v)
    (hins : 0 < op * mode → rem.Nodup ∧ (∀ v ∈ rem, v ∉ st.lines) ∧ (∀ v ∈ rem, 0 < v)) :
    bgUndoRedoLoop op mode fuel rem st =
      if mode < 0 then
        { lines := if 0 < op then st.lines.filter (fun v => decide (v ∉ rem))
                   else List.insertionSort (· ≤ ·) (st.lines ++ rem),
          undo := st.undo,
          redo := finalizeUndoList (appendUndoList st.redo (decide (op > 0)) rem),
          fnCache := st.fnCache }
      else
        { lines := if 0 < op then List.insertionSort (· ≤ ·) (st.lines ++ rem)
                   else st.lines.filter (fun v => decide (v ∉ rem)),
          undo := finalizeUndoList (appendUndoList st.undo (decide (op > 0)) rem),
          redo := st.redo,
          fnCache := st.fnCache } := by
  have hfrag : rem.take 400 = rem := List.take_of_length_le (by omega)
  conv_lhs => rw [bgUndoRedoLoop.eq_def]
  simp only [if_neg hshort, hfrag]
  rcases hmode with hm | hm <;> subst hm
  · have hneg : ((-1 : Int) < 0) := by norm_num
    simp only [if_pos hneg, finalizeReplayTarget, if_pos hneg]
    rcases hop with ho | ho <;> subst ho
    · rw [invertCmd_delete_eq 1 (-1) (by norm_num) rem st.lines hs hpos]
      norm_num
    · obtain ⟨hnd, hdisj, hFpos⟩ := hins (by norm_num)
      rw [invertCmd_insert_eq (-1) (-1) (by norm_num) rem st.lines hs hnd hdisj]
      norm_num
  · have hneg : ¬ ((1 : Int) < 0) := by norm_num
    simp only [if_neg hneg, finalizeReplayTarget, if_neg hneg]
    rcases hop with ho | ho <;> subst ho
    · obtain ⟨hnd, hdisj, hFpos⟩ := hins (by norm_num)
      rw [invertCmd_insert_eq 1 1 (by norm_num) rem st.lines hs hnd hdisj]
      norm_num
    · rw [invertCmd_delete_eq (-1) 1 (by norm_num) rem st.lines hs hpos]
      norm_num

theorem bgUndoRedoLoop_eq (op mode : Int) (hop : op = 1 ∨ op = -1)
    (hmode : mode = -1 ∨ mode = 1) :
    ∀ (fuel : Nat) (rem : List Int) (st : SLState),
      rem.length ≤ fuel →
      List.Sorted (· < ·) st.lines →
      (∀ v ∈ st.lines, 0 < v) →
      (0 < op * mode → rem.Nodup ∧ (∀ v ∈ rem, v ∉ st.lines) ∧ (∀ v ∈ rem, 0 < v)) →
      bgUndoRedoLoop op mode fuel rem st =
        if mode < 0 then
          { lines := if 0 < op then st.lines.filter (fun v => decide (v ∉ rem))
                     else List.insertionSort (· ≤ ·) (st.lines ++ rem),
            undo := st.undo,
            redo := finalizeUndoList (appendUndoList st.redo (decide (op > 0)) rem),
            fnCache := st.fnCache }
        else
          { lines := if 0 < op then List.insertionSort (· ≤ ·) (st.lines ++ rem)
                     else st.lines.filter (fun v => decide (v ∉ rem)),
            undo := finalizeUndoList (appendUndoList st.undo (decide (op > 0)) rem),
            redo := st.redo,
            fnCache := st.fnCache } := by
  intro fuel
  induction fuel with
  | zero =>
    intro rem st hfl hs hpos hins
    exact bgUndoRedoLoop_last op mode hop hmode 0 rem st (by omega) hs hpos hins
  | succ n ih =>
    intro rem st hfl hs hpos hins
    by_cases h400 : 400 ≤ rem.length
    · have hsplit : rem.take 400 ++ rem.drop 400 = rem := List.take_append_drop 400 rem
      have hdisj_td : ∀ v ∈ rem.drop 400, rem.Nodup → v ∉ rem.take 400 := by
        intro v hvd hnd x
        have hnd2 := hsplit ▸ hnd
        rw [List.nodup_append] at hnd2
        exact hnd2.2.2 x hvd
      have hunfold : bgUndoRedoLoop op mode (n + 1) rem st
          = bgUndoRedoLoop op mode n (rem.drop 400)
              (if mode < 0 then
                { st with lines := SearchList_InvertCmd op (rem.take 400) mode st.lines,
                          redo := appendUndoList st.redo (decide (op > 0)) (rem.take 400) }
               else
                { st with lines := SearchList_InvertCmd op (rem.take 400) mode st.lines,
                          undo := appendUndoList st.undo (decide (op > 0)) (rem.take 400) }) := by
        conv_lhs => rw [bgUndoRedoLoop]
        simp only [if_pos h400]
      rw [hunfold]
      rcases hmode with hm | hm <;> subst hm
      · -- mode = -1: the replay appends to the redo ledger
        have hm0 : ((-1 : Int) < 0) := by norm_num
        simp only [if_pos hm0]
        rcases hop with ho | ho <;> subst ho
        · -- op = 1, mode = -1: delete path
          have hdel : SearchList_InvertCmd 1 (rem.take 400) (-1) st.lines
              = st.lines.filter (fun v => decide (v ∉ rem.take 400)) :=
            invertCmd_delete_eq 1 (-1) (by norm_num) _ _ hs hpos
          rw [ih (rem.drop 400) _
            (by simp only [List.length_drop]; omega)
            (by rw [hdel]; exact hs.sublist (List.filter_sublist st.lines))
            (by rw [hdel]; exact fun v hv => hpos v (List.mem_of_mem_filter hv))
            (fun hcon => absurd hcon (by norm_num))]
          simp only [if_pos hm0, hdel]
          rw [filter_notMem_comp, hsplit, appendUndoList_append, hsplit]
          norm_num
        · -- op = -1, mode = -1: insert path
          obtain ⟨hnd, hdisj, hFpos⟩ := hins (by norm_num)
          have hndt : (rem.take 400).Nodup := hnd.sublist (List.take_sublist 400 rem)
          have hdisjt : ∀ v ∈ rem.take 400, v ∉ st.lines :=
            fun v hv => hdisj v ((List.take_sublist 400 rem).mem hv)
          have hpost : ∀ v ∈ rem.take 400, 0 < v :=
            fun v hv => hFpos v ((List.take_sublist 400 rem).mem hv)
          have hinsr : SearchList_InvertCmd (-1) (rem.take 400) (-1) st.lines
              = List.insertionSort (· ≤ ·) (st.lines ++ rem.take 400) :=
            invertCmd_insert_eq (-1) (-1) (by norm_num) _ _ hs hndt hdisjt
          have hpres := sorted_pos_insertAppend st.lines (rem.take 400) hs hpos hndt
            hdisjt hpost
          rw [ih (rem.drop 400) _
            (by simp only [List.length_drop]; omega)
            (by rw [hinsr]; exact hpres.1)
            (by rw [hinsr]; exact hpres.2)
            (fun _ => ⟨hnd.sublist (List.drop_sublist 400 rem),
              fun v hv => by
                rw [hinsr, List.mem_insertionSort, List.mem_append]
                rintro (h | h)
                · exact hdisj v ((List.drop_sublist 400 rem).mem hv) h
                · exact hdisj_td v hv hnd h,
              fun v hv => hFpos v ((List.drop_sublist 400 rem).mem hv)⟩)]
          simp only [if_pos hm0, hinsr]
          rw [insertAppend_comp, hsplit, appendUndoList_append, hsplit]
          norm_num
      · -- mode = 1: the replay appends to the undo ledger
        have hm0 : ¬ ((1 : Int) < 0) := by norm_num
        simp only [if_neg hm0]
        rcases hop with ho | ho <;> subst ho
        · -- op = 1, mode = 1: insert path
          obtain ⟨hnd, hdisj, hFpos⟩ := hins (by norm_num)
          have hndt : (rem.take 400).Nodup := hnd.sublist (List.take_sublist 400 rem)
          have hdisjt : ∀ v ∈ rem.take 400, v ∉ st.lines :=
            fun v hv => hdisj v ((List.take_sublist 400 rem).mem hv)
          have hpost : ∀ v ∈ rem.take 400, 0 < v :=
            fun v hv => hFpos v ((List.take_sublist 400 rem).mem hv)
          have hinsr : SearchList_InvertCmd 1 (rem.take 400) 1 st.lines
              = List.insertionSort (· ≤ ·) (st.lines ++ rem.take 400) :=
            invertCmd_insert_eq 1 1 (by norm_num) _ _ hs hndt hdisjt
          have hpres := sorted_pos_insertAppend st.lines (rem.take 400) hs hpos hndt
            hdisjt hpost
          rw [ih (rem.drop 400) _
            (by simp only [List.length_drop]; omega)
            (by rw [hinsr]; exact hpres.1)
            (by rw [hinsr]; exact hpres.2)
            (fun _ => ⟨hnd.sublist (List.drop_sublist 400 rem),
              fun v hv => by
                rw [hinsr, List.mem_insertionSort, List.mem_append]
                rintro (h | h)
                · exact hdisj v ((List.drop_sublist 400 rem).mem hv) h
                · exact hdisj_td v hv hnd h,
              fun v hv => hFpos v ((List.drop_sublist 400 rem).mem hv)⟩)]
          simp only [if_neg hm0, hinsr]
          rw [insertAppend_comp, hsplit, appendUndoList_append, hsplit]
          norm_num
        · -- op = -1, mode = 1: delete path
          have hdel : SearchList_InvertCmd (-1) (rem.take 400) 1 st.lines
              = st.lines.filter (fun v => decide (v ∉ rem.take 400)) :=
            invertCmd_delete_eq (-1) 1 (by norm_num) _ _ hs hpos
          rw [ih (rem.drop 400) _
            (by simp only [List.length_drop]; omega)
            (by rw [hdel]; exact hs.sublist (List.filter_sublist st.lines))
            (by rw [hdel]; exact fun v hv => hpos v (List.mem_of_mem_filter hv))
            (fun hcon => absurd hcon (by norm_num))]
          simp only [if_neg hm0, hdel]
          rw [filter_notMem_comp, hsplit, appendUndoList_append, hsplit]
          norm_num
    · exact bgUndoRedoLoop_last op mode hop hmode (n + 1) rem st h400 hs hpos hins

theorem dropLast_append_of_getLast? (l : List UndoCmd) (e : UndoCmd)
    (h : l.getLast? = some e) : l.dropLast ++ [e] = l := by
  have hne : l ≠ [] := by
    intro h0
    subst h0
    simp at h
  rw [List.getLast?_eq_getLast l hne, Option.some_inj] at h
  rw [← h]
  exact List.dropLast_append_getLast hne

theorem sort_filter_restore (L S : List Int) (hs : List.Sorted (· < ·) L)
    (hSnd : S.Nodup) (hsub : ∀ v ∈ S, v ∈ L) :
    List.insertionSort (· ≤ ·) (L.filter (fun v => decide (v ∉ S)) ++ S) = L := by
  have h1 : List.Perm S (L.filter (fun v => decide (v ∈ S))) := by
    apply List.perm_of_nodup_nodup_toFinset_eq hSnd
      (hs.nodup.sublist (List.filter_sublist L))
    ext a
    simp only [List.mem_toFinset, List.mem_filter, decide_eq_true_eq]
    exact ⟨fun h => ⟨hsub a h, h⟩, fun h => h.2⟩
  have h2 : List.Perm (L.filter (fun v => decide (v ∉ S)) ++ S) L := by
    refine (h1.append_left _).trans ?_
    have h3 := List.filter_append_perm (fun v => decide (v ∉ S)) L
    have h4 : (fun v => !decide (v ∉ S)) = (fun v => decide (v ∈ S)) := by
      funext v
      by_cases hv : v ∈ S <;> simp [hv]
    rwa [h4] at h3
  exact List.eq_of_perm_of_sorted ((List.perm_insertionSort _ _).trans h2)
    (List.sorted_insertionSort _ _) (hs.imp le_of_lt)

theorem sort_append_delete (L S : List Int) (hs : List.Sorted (· < ·) L)
    (hdisj : ∀ v ∈ S, v ∉ L) :
    (List.insertionSort (· ≤ ·) (L ++ S)).filter (fun v => decide (v ∉ S)) = L := by
  have hLf : L.filter (fun v => decide (v ∉ S)) = L :=
    List.filter_eq_self.mpr (fun v hv => by
      simp only [decide_eq_true_eq]
      exact fun hvS => hdisj v hvS hv)
  have hSf : S.filter (fun v => decide (v ∉ S)) = [] := by
    rw [List.filter_eq_nil_iff]
    intro a ha
    simp [ha]
  have hperm : List.Perm
      ((List.insertionSort (· ≤ ·) (L ++ S)).filter (fun v => decide (v ∉ S))) L := by
    refine ((List.perm_insertionSort _ (L ++ S)).filter _).trans ?_
    rw [List.filter_append, hLf, hSf, List.append_nil]
  exact List.eq_of_perm_of_sorted hperm
    ((List.sorted_insertionSort _ _).sublist (List.filter_sublist _))
    (hs.imp le_of_lt)

/-- C2 (amended).  Undo/redo round trip: from any dialog state satisfying the
data-model invariants — match index strictly ascending with positive members,
top undo entry finalized with distinct positive lines that are all present
(add entry) or all absent (remove entry), and no unfinalized same-direction
top below it or atop the redo stack — running `SearchList_Undo` to completion
and then `SearchList_Redo` to completion restores the match index and both
ledger stacks (and the cache) exactly. -/
theorem claim2_undo_redo_roundtrip (st : SLState) (e : UndoCmd)
    (hlast : st.undo.getLast? = some e)
    (hop : e.op = 1 ∨ e.op = -1)
    (hnd : e.lines.Nodup)
    (hpose : ∀ v ∈ e.lines, 0 < v)
    (hs : List.Sorted (· < ·) st.lines)
    (hpos : ∀ v ∈ st.lines, 0 < v)
    (hsub : e.op = 1 → ∀ v ∈ e.lines, v ∈ st.lines)
    (hdisj : e.op = -1 → ∀ v ∈ e.lines, v ∉ st.lines)
    (hufin : topUnfinalizedSameDir st.undo.dropLast (decide (0 < e.op)) = false)
    (hrfin : topUnfinalizedSameDir st.redo (decide (0 < e.op)) = false) :
    SearchList_Redo (SearchList_Undo st) = st := by
  have hundo : SearchList_Undo st
      = bgUndoRedoLoop e.op (-1) e.lines.length e.lines
          { st with undo := st.undo.dropLast } := by
    unfold SearchList_Undo
    rw [hlast]
  rcases hop with ho | ho
  · -- e.op = 1: undo deletes the entry lines, redo re-inserts them
    rw [ho] at hundo hufin hrfin
    rw [show (decide ((0 : Int) < 1)) = true from by decide] at hufin hrfin
    have h1 := bgUndoRedoLoop_eq 1 (-1) (Or.inl rfl) (Or.inl rfl)
      e.lines.length e.lines { st with undo := st.undo.dropLast } le_rfl hs hpos
      (fun hcon => absurd hcon (by norm_num))
    rw [if_pos (show ((-1 : Int) < 0) from by norm_num),
      if_pos (show ((0 : Int) < 1) from by norm_num),
      show (decide ((1 : Int) > 0)) = true from by decide] at h1
    rw [hundo, h1, appendUndoList_push _ _ _ hrfin, if_pos rfl,
      finalizeUndoList_concat_add]
    have hredo : SearchList_Redo
        { lines := st.lines.filter (fun v => decide (v ∉ e.lines)),
          undo := st.undo.dropLast,
          redo := st.redo ++ [⟨1, e.lines⟩],
          fnCache := st.fnCache }
        = bgUndoRedoLoop 1 1 e.lines.length e.lines
            { lines := st.lines.filter (fun v => decide (v ∉ e.lines)),
              undo := st.undo.dropLast,
              redo := st.redo,
              fnCache := st.fnCache } := by
      unfold SearchList_Redo
      simp [List.getLast?_concat, List.dropLast_concat]
    rw [hredo]
    have h2 := bgUndoRedoLoop_eq 1 1 (Or.inl rfl) (Or.inr rfl)
      e.lines.length e.lines
      { lines := st.lines.filter (fun v => decide (v ∉ e.lines)),
        undo := st.undo.dropLast,
        redo := st.redo,
        fnCache := st.fnCache } le_rfl
      (hs.sublist (List.filter_sublist st.lines))
      (fun v hv => hpos v (List.mem_of_mem_filter hv))
      (fun _ => ⟨hnd,
        fun v hv => by
          rw [List.mem_filter]
          rintro ⟨-, hdec⟩
          rw [decide_eq_true_eq] at hdec
          exact hdec hv,
        hpose⟩)
    rw [if_neg (show ¬ ((1 : Int) < 0) from by norm_num),
      if_pos (show ((0 : Int) < 1) from by norm_num),
      show (decide ((1 : Int) > 0)) = true from by decide] at h2
    rw [h2, appendUndoList_push _ _ _ hufin, if_pos rfl, finalizeUndoList_concat_add,
      sort_filter_restore st.lines e.lines hs hnd (hsub ho)]
    have hu : st.undo.dropLast ++ [(⟨1, e.lines⟩ : UndoCmd)] = st.undo := by
      rw [show (⟨1, e.lines⟩ : UndoCmd) = e from by rw [← ho]]
      exact dropLast_append_of_getLast? st.undo e hlast
    rw [hu]
  · -- e.op = -1: undo re-inserts the entry lines, redo deletes them
    rw [ho] at hundo hufin hrfin
    rw [show (decide ((0 : Int) < -1)) = false from by decide] at hufin hrfin
    have h1 := bgUndoRedoLoop_eq (-1) (-1) (Or.inr rfl) (Or.inl rfl)
      e.lines.length e.lines { st with undo := st.undo.dropLast } le_rfl hs hpos
      (fun _ => ⟨hnd, hdisj ho, hpose⟩)
    rw [if_pos (show ((-1 : Int) < 0) from by norm_num),
      if_neg (show ¬ ((0 : Int) < -1) from by norm_num),
      show (decide ((-1 : Int) > 0)) = false from by decide] at h1
    rw [hundo, h1, appendUndoList_push _ _ _ hrfin, if_neg Bool.false_ne_true,
      finalizeUndoList_concat_remove]
    have hpres := sorted_pos_insertAppend st.lines e.lines hs hpos hnd (hdisj ho) hpose
    have hredo : SearchList_Redo
        { lines := List.insertionSort (· ≤ ·) (st.lines ++ e.lines),
          undo := st.undo.dropLast,
          redo := st.redo ++ [⟨-1, e.lines⟩],
          fnCache := st.fnCache }
        = bgUndoRedoLoop (-1) 1 e.lines.length e.lines
            { lines := List.insertionSort (· ≤ ·) (st.lines ++ e.lines),
              undo := st.undo.dropLast,
              redo := st.redo,
              fnCache := st.fnCache } := by
      unfold SearchList_Redo
      simp [List.getLast?_concat, List.dropLast_concat]
    rw [hredo]
    have h2 := bgUndoRedoLoop_eq (-1) 1 (Or.inr rfl) (Or.inr rfl)
      e.lines.length e.lines
      { lines := List.insertionSort (· ≤ ·) (st.lines ++ e.lines),
        undo := st.undo.dropLast,
        redo := st.redo,
        fnCache := st.fnCache } le_rfl hpres.1 hpres.2
      (fun hcon => absurd hcon (by norm_num))
    rw [if_neg (show ¬ ((1 : Int) < 0) from by norm_num),
      if_neg (show ¬ ((0 : Int) < -1) from by norm_num),
      show (decide ((-1 : Int) > 0)) = false from by decide] at h2
    rw [h2, appendUndoList_push _ _ _ hufin, if_neg Bool.false_ne_true,
      finalizeUndoList_concat_remove,
      sort_append_delete st.lines e.lines hs (hdisj ho)]
    have hu : st.undo.dropLast ++ [(⟨-1, e.lines⟩ : UndoCmd)] = st.undo := by
      rw [show (⟨-1, e.lines⟩ : UndoCmd) = e from by rw [← ho]]
      exact dropLast_append_of_getLast? st.undo e hlast
    rw [hu]

/-- Witness for C2 at a concrete state: index [5, 10, 20] with one finalized
add entry [10, 20]; undo then redo restores the state exactly. -/
theorem claim2_undo_redo_roundtrip_witness :
    SearchList_Redo (SearchList_Undo ⟨[5, 10, 20], [⟨1, [10, 20]⟩], [], []⟩)
      = ⟨[5, 10, 20], [⟨1, [10, 20]⟩], [], []⟩ :=
  claim2_undo_redo_roundtrip ⟨[5, 10, 20], [⟨1, [10, 20]⟩], [], []⟩ ⟨1, [10, 20]⟩
    (by decide) (Or.inl rfl) (by decide) (by decide) (by decide) (by decide)
    (by decide) (by decide) (by decide) (by decide)

/-! Renumbering after document truncation (C3, C4). -/

theorem sorted_takeWhile_eq_filter (l : List Int) (x : Int)
    (hs : List.Sorted (· ≤ ·) l) :
    l.takeWhile (fun y => decide (y < x)) = l.filter (fun y => decide (y < x)) := by
  induction l with
  | nil => simp
  | cons a t ih =>
    rw [List.takeWhile_cons, List.filter_cons]
    by_cases ha : a < x
    · rw [if_pos (by simpa using ha), if_pos (by simpa using ha),
        ih (List.sorted_cons.mp hs).2]
    · rw [if_neg (by simpa using ha), if_neg (by simpa using ha)]
      have ht : t.filter (fun y => decide (y < x)) = [] := by
        rw [List.filter_eq_nil_iff]
        intro b hb
        simp only [decide_eq_true_eq]
        exact fun hbx => ha (lt_of_le_of_lt ((List.sorted_cons.mp hs).1 b hb) hbx)
      rw [ht]

theorem sorted_dropWhile_eq_filter (l : List Int) (x : Int)
    (hs : List.Sorted (· ≤ ·) l) :
    l.dropWhile (fun y => decide (y < x)) = l.filter (fun y => decide (x ≤ y)) := by
  induction l with
  | nil => simp
  | cons a t ih =>
    rw [List.dropWhile_cons, List.filter_cons]
    by_cases ha : a < x
    · rw [if_pos (by simpa using ha), if_neg (by simp; omega)]
      exact ih (List.sorted_cons.mp hs).2
    · rw [if_neg (by simpa using ha), if_pos (by simp; omega)]
      congr 1
      exact (List.filter_eq_self.mpr (fun b hb => by
        simp only [decide_eq_true_eq]
        exact le_trans (not_lt.mp ha) ((List.sorted_cons.mp hs).1 b hb))).symm

/-- C3 counterexample.  For the two-sided parameter pair top=50, bottom=60 the
match-index branch of `SearchList_AdjustLineNums` ignores `top_l`: from index
[10, 55, 70] it merely truncates to [10, 55], while the claimed
drop-and-shift transform yields [6]. -/
theorem claim3_two_sided_counterexample :
    (SearchList_AdjustLineNums ⟨[10, 55, 70], [], [], []⟩ 50 60).lines
      ≠ specRenumber 50 60 [10, 55, 70] := by
  decide

/-- C3 (amended).  For every sorted positive match index and every one-sided
truncation pair — `bottom_l = 0` (discard above) or `top_l = 1` (discard
below), the only shapes the caller `MenuCmd_Discard` produces
(trowser.py:7840) — `SearchList_AdjustLineNums` maps the match index to
exactly the spec transform: members inside the discarded range dropped, every
survivor L replaced by `L - (top_l - 1)`. -/
theorem claim3_adjust_renumbers_one_sided (st : SLState) (top_l bottom_l : Int)
    (hs : List.Sorted (· < ·) st.lines) (hpos : ∀ v ∈ st.lines, 0 < v)
    (hside : bottom_l = 0 ∨ top_l = 1) :
    (SearchList_AdjustLineNums st top_l bottom_l).lines
      = specRenumber top_l bottom_l st.lines := by
  have hsle : List.Sorted (· ≤ ·) st.lines := hs.imp le_of_lt
  unfold SearchList_AdjustLineNums specRenumber
  by_cases hb : bottom_l = 0
  · subst hb
    rw [if_pos rfl]
    show (st.lines.drop (SearchList_GetLineIdx st.lines top_l)).map _ = _
    rw [SearchList_GetLineIdx, bisect_left_sorted st.lines top_l hsle]
    have hdrop : st.lines.drop
          (st.lines.takeWhile (fun y => decide (y < top_l))).length
        = st.lines.dropWhile (fun y => decide (y < top_l)) := by
      have h := List.drop_left (st.lines.takeWhile (fun y => decide (y < top_l)))
        (st.lines.dropWhile (fun y => decide (y < top_l)))
      rwa [List.takeWhile_append_dropWhile] at h
    rw [hdrop, sorted_dropWhile_eq_filter st.lines top_l hsle]
    have hfc : st.lines.filter (fun y => decide (top_l ≤ y))
        = st.lines.filter
            (fun L => decide (top_l ≤ L ∧ (L < 0 ∨ (0 : Int) = 0))) := by
      apply List.filter_congr
      intro v _
      simp
    rw [hfc]
    apply List.map_congr_left
    intro v _
    omega
  · have ht : top_l = 1 := hside.resolve_left hb
    subst ht
    rw [if_neg hb]
    show st.lines.take (SearchList_GetLineIdx st.lines bottom_l) = _
    rw [SearchList_GetLineIdx, bisect_left_sorted st.lines bottom_l hsle]
    have htake : st.lines.take
          (st.lines.takeWhile (fun y => decide (y < bottom_l))).length
        = st.lines.takeWhile (fun y => decide (y < bottom_l)) := by
      have h := List.take_left (st.lines.takeWhile (fun y => decide (y < bottom_l)))
        (st.lines.dropWhile (fun y => decide (y < bottom_l)))
      rwa [List.takeWhile_append_dropWhile] at h
    rw [htake, sorted_takeWhile_eq_filter st.lines bottom_l hsle]
    have hfc : st.lines.filter (fun y => decide (y < bottom_l))
        = st.lines.filter
            (fun L => decide ((1 : Int) ≤ L ∧ (L < bottom_l ∨ bottom_l = 0))) := by
      apply List.filter_congr
      intro v hv
      have hv1 := hpos v hv
      apply decide_eq_decide.mpr
      constructor
      · exact fun h => ⟨by omega, Or.inl h⟩
      · rintro ⟨-, h | h⟩
        · exact h
        · exact absurd h hb
    rw [hfc]
    have hmap : ∀ (l : List Int), l.map (fun L => L - ((1 : Int) - 1)) = l := by
      intro l
      induction l with
      | nil => rfl
      | cons a t iht =>
        simp only [List.map_cons, iht]
        norm_num
    rw [hmap]

/-- Witness for C3 at the spec's concrete example: index {10, 25, 75} with
top=50, bottom=0 renumbers to exactly {26}. -/
theorem claim3_adjust_renumbers_witness :
    (SearchList_AdjustLineNums ⟨[10, 25, 75], [], [], []⟩ 50 0).lines
      = specRenumber 50 0 [10, 25, 75]
    ∧ specRenumber 50 0 [10, 25, 75] = [26] :=
  ⟨claim3_adjust_renumbers_one_sided ⟨[10, 25, 75], [], [], []⟩ 50 0 (by decide)
      (by decide) (Or.inl rfl), by decide⟩

/-- C4 counterexample.  Truncation does not apply the renumbering transform to
the redo stack: from a redo stack holding the add entry [75] and top=50,
bottom=0, the claimed per-entry transform keeps the entry as [26], but
`SearchList_AdjustLineNums` resets `dlg_srch_redo` wholesale
(trowser.py:5132). -/
theorem claim4_redo_cleared_counterexample :
    (SearchList_AdjustLineNums ⟨[75], [], [⟨1, [75]⟩], []⟩ 50 0).redo
      ≠ ((⟨[75], [], [⟨1, [75]⟩], []⟩ : SLState).redo.map
          (fun c => UndoCmd.mk c.op (specRenumber 50 0 c.lines))).filter
          (fun c => !c.lines.isEmpty) := by
  decide

theorem adjust_undo_filterMap (top_l bottom_l : Int) (U : List UndoCmd) :
    (U.filterMap (fun cmd =>
        let tmpl := (cmd.lines.filter
            (fun line => decide (line ≥ top_l ∧ (line < bottom_l ∨ bottom_l = 0)))).map
          (fun line => line - top_l + 1)
        if 0 < tmpl.length then some (UndoCmd.mk cmd.op tmpl) else none))
      = (U.map (fun c => UndoCmd.mk c.op (specRenumber top_l bottom_l c.lines))).filter
          (fun c => !c.lines.isEmpty) := by
  induction U with
  | nil => rfl
  | cons c U ih =>
    rw [List.filterMap_cons, List.map_cons, List.filter_cons]
    have hcond : (fun line : Int =>
          decide (line ≥ top_l ∧ (line < bottom_l ∨ bottom_l = 0)))
        = (fun L : Int => decide (top_l ≤ L ∧ (L < bottom_l ∨ bottom_l = 0))) := by
      funext L
      exact decide_eq_decide.mpr (by rw [ge_iff_le])
    have hspec : (c.lines.filter (fun line =>
          decide (line ≥ top_l ∧ (line < bottom_l ∨ bottom_l = 0)))).map
          (fun line => line - top_l + 1)
        = specRenumber top_l bottom_l c.lines := by
      unfold specRenumber
      rw [hcond]
      apply List.map_congr_left
      intro v _
      omega
    simp only [hspec]
    by_cases hemp : specRenumber top_l bottom_l c.lines = []
    · rw [hemp]
      rw [if_neg (by simp), if_neg (by simp)]
      exact ih
    · rw [if_pos (List.length_pos.mpr hemp), if_pos (by simp [hemp])]
      rw [ih]

/-- C4 (amended).  When the document is truncated, every entry of the undo
stack has the drop-and-shift transform applied to its line list with entries
whose list becomes empty removed, the redo stack is cleared wholesale (not
transformed), and the frame-number cache is emptied wholesale. -/
theorem claim4_adjust_ledger_cache (st : SLState) (top_l bottom_l : Int) :
    (SearchList_AdjustLineNums st top_l bottom_l).undo
        = (st.undo.map
              (fun c => UndoCmd.mk c.op (specRenumber top_l bottom_l c.lines))).filter
            (fun c => !c.lines.isEmpty)
    ∧ (SearchList_AdjustLineNums st top_l bottom_l).redo = []
    ∧ (SearchList_AdjustLineNums st top_l bottom_l).fnCache = [] :=
  ⟨adjust_undo_filterMap top_l bottom_l st.undo, rfl, rfl⟩

end Trowser
